import Mathlib

/-!
Verification of the Markdown-to-static-HTML converter (convert.py) and the
index generator (generate_index.py).

Strings from the Python source are modelled as `List Char`.  Python's `\n`
is the only newline that occurs in the text pipeline (files are read in
universal-newlines text mode), so line handling is modelled on `'\n'`.
Python's whitespace class (`str.strip`, `str.isspace` and the `re` module's
`\s` on `str` patterns all use CPython's `Py_UNICODE_ISSPACE`) is modelled
by `pyWs` below.
-/

/-- Python's whitespace class: `str.isspace()` and, identically, `\s` of the
`re` module on `str` patterns (CPython's `Py_UNICODE_ISSPACE`): the ASCII
characters 0x09-0x0d, 0x1c-0x1f and 0x20, plus the Unicode whitespace
characters U+0085, U+00A0, U+1680, U+2000-U+200A, U+2028, U+2029, U+202F,
U+205F and U+3000. -/
def pyWs (c : Char) : Bool :=
  decide ((9 ≤ c.toNat ∧ c.toNat ≤ 13) ∨ (28 ≤ c.toNat ∧ c.toNat ≤ 32) ∨
    c.toNat = 133 ∨ c.toNat = 160 ∨ c.toNat = 5760 ∨
    (8192 ≤ c.toNat ∧ c.toNat ≤ 8202) ∨ c.toNat = 8232 ∨ c.toNat = 8233 ∨
    c.toNat = 8239 ∨ c.toNat = 8287 ∨ c.toNat = 12288)

/-- `nonWs l`: does `l` contain a non-whitespace character?
Models the truthiness of Python `l.strip()`. -/
def nonWs (l : List Char) : Bool :=
  l.any (fun c => ¬ pyWs c)

/-- Python `l.strip()`: remove leading and trailing whitespace. -/
def pyStrip (l : List Char) : List Char :=
  ((l.dropWhile pyWs).reverse.dropWhile pyWs).reverse

/-- Split a character list at every `'\n'` (like Python `str.split("\n")`):
always returns at least one (possibly empty) line, and no line contains `'\n'`. -/
def splitNl : List Char → List (List Char)
  | [] => [[]]
  | c :: cs =>
    if c = '\n' then [] :: splitNl cs
    else
      match splitNl cs with
      | [] => [[c]]
      | l :: ls => (c :: l) :: ls

/-- Join lines with `'\n'` (like Python `"\n".join`). -/
def joinNl : List (List Char) → List Char
  | [] => []
  | [l] => l
  | l :: l2 :: ls => l ++ '\n' :: joinNl (l2 :: ls)

/-- Python `s.find(sub)` restricted to a suffix: index of the first occurrence
of `sub` as a contiguous sublist of `s`, or `none`.  (For nonempty `sub` this
is exactly Python's semantics; `strip_frontmatter` only searches for `"\n---"`.) -/
def findSub (sub : List Char) : List Char → Option Nat
  | [] => none
  | c :: cs =>
    if sub.isPrefixOf (c :: cs) then some 0
    else (findSub sub cs).map (fun n => n + 1)

/-- The frontmatter delimiter `"---"`. -/
def fmDelim : List Char := ['-', '-', '-']

/-- The pattern `"\n---"` searched for by `strip_frontmatter`. -/
def nlDelim : List Char := '\n' :: fmDelim

/-- Embedding of `strip_frontmatter` (convert.py, lines 67-77):

    if not content.startswith("---"): return content
    end = content.find("\n---", 3)
    if end == -1: return content
    return content[end + 4:].lstrip("\n")

`content.find("\n---", 3)` is modelled by searching `content.drop 3` and
adding 3 to the found index, which matches Python's `str.find` semantics. -/
def strip_frontmatter (content : List Char) : List Char :=
  if fmDelim.isPrefixOf content then
    match findSub nlDelim (content.drop 3) with
    | none => content
    | some k => (content.drop ((k + 3) + 4)).dropWhile (fun c => c = '\n')
  else content

/-- The frontmatter stripper as worded by the spec (section 4.1): if the
document's first line is the delimiter and some later line consists solely of
the delimiter, return the text strictly after the first such closing line,
with leading blank lines trimmed; otherwise signal `none` (text unchanged). -/
def stripFrontmatterSpec (doc : List Char) : Option (List Char) :=
  match splitNl doc with
  | [] => none
  | first :: rest =>
    if first = fmDelim then
      match rest.findIdx? (fun l => l = fmDelim) with
      | none => none
      | some j => some ((joinNl (rest.drop (j + 1))).dropWhile (fun c => c = '\n'))
    else none

example : strip_frontmatter "---\ntitle: x\n---\nbody".toList = "body".toList := by decide
example : strip_frontmatter "---\n----\n---\nbody".toList = "-\n---\nbody".toList := by decide
example : stripFrontmatterSpec "---\n----\n---\nbody".toList = some "body".toList := by decide
example : strip_frontmatter "---\n----\nbody".toList = "-\nbody".toList := by decide
example : strip_frontmatter "no frontmatter".toList = "no frontmatter".toList := by decide

/-- A parser node (convert.py `parse_sections` output dictionaries):
either a heading (level and stripped text) or a raw content span. -/
inductive Node where
  | heading (level : Nat) (text : List Char)
  | content (text : List Char)
deriving DecidableEq, Repr

/-- One match of the heading regular expression
`^(#{1,6})\s+(.+)$` (MULTILINE) of `parse_sections`.
`raw` is the whole matched text (group 0), `g2` is group 2 (the `.+` part),
`rest` is the remaining input from `match.end()` on. -/
structure HMatch where
  level : Nat
  raw : List Char
  g2 : List Char
  rest : List Char
deriving DecidableEq, Repr

/-- Backtracking of the greedy `\s+`: given the length `w` of the maximal
whitespace run, return the largest `m ≤ w` such that the character at
position `m` of `s1` exists and is not `'\n'` (so that `.+` can match),
trying the longest first, exactly as the regex engine does. -/
def bestWs : Nat → List Char → Option Nat
  | 0, _ => none
  | Nat.succ m, s1 =>
    match s1.drop (m + 1) with
    | [] => bestWs m s1
    | c :: _ => if c = '\n' then bestWs m s1 else some (m + 1)

/-- Attempt to match `^(#{1,6})\s+(.+)$` at the current position (assumed to
be a line start).  `#{1,6}` takes the whole run of `'#'`; it fails when the
run is empty or longer than 6 (a shorter take would still be followed by
`'#'`, which is not whitespace).  `\s+` takes the longest whitespace run that
leaves a non-`'\n'` character for `.+`, which then extends to the end of the
line (`$`).  Note `\s` matches `'\n'`, so a match may span several lines. -/
def matchHeadingAt (s : List Char) : Option HMatch :=
  let hashes := s.takeWhile (fun c => c = '#')
  let r := hashes.length
  if 1 ≤ r ∧ r ≤ 6 then
    let s1 := s.drop r
    match bestWs (s1.takeWhile pyWs).length s1 with
    | none => none
    | some m =>
      let s2 := s1.drop m
      let g2 := s2.takeWhile (fun c => ¬ c = '\n')
      some ⟨r, hashes ++ s1.take m ++ g2, g2, s2.dropWhile (fun c => ¬ c = '\n')⟩
  else none

lemma bestWs_le {w : Nat} {s1 : List Char} {m : Nat} (h : bestWs w s1 = some m) :
    1 ≤ m ∧ m ≤ w := by
  induction w with
  | zero => simp [bestWs] at h
  | succ w ih =>
    rw [bestWs] at h
    rcases hd : s1.drop (w + 1) with _ | ⟨c, cs⟩
    · rw [hd] at h
      have := ih h
      omega
    · rw [hd] at h
      by_cases hc : c = '\n'
      · simp [hc] at h
        have := ih h
        omega
      · simp [hc] at h
        omega

/-- Inversion of a successful heading match: the components of the result,
with `r` the length of the `'#'` run and `m` the length taken by `\s+`. -/
lemma matchHeadingAt_inv {s : List Char} {hm : HMatch}
    (h : matchHeadingAt s = some hm) :
    ∃ m, 1 ≤ (s.takeWhile (fun c => c = '#')).length ∧
      (s.takeWhile (fun c => c = '#')).length ≤ 6 ∧
      bestWs ((s.drop (s.takeWhile (fun c => c = '#')).length).takeWhile
          pyWs).length
        (s.drop (s.takeWhile (fun c => c = '#')).length) = some m ∧
      hm.level = (s.takeWhile (fun c => c = '#')).length ∧
      hm.g2 = ((s.drop (s.takeWhile (fun c => c = '#')).length).drop m).takeWhile
          (fun c => ¬ c = '\n') ∧
      hm.rest = ((s.drop (s.takeWhile (fun c => c = '#')).length).drop m).dropWhile
          (fun c => ¬ c = '\n') ∧
      hm.raw = s.takeWhile (fun c => c = '#') ++
          (s.drop (s.takeWhile (fun c => c = '#')).length).take m ++ hm.g2 := by
  simp only [matchHeadingAt] at h
  split at h
  · split at h
    · exact absurd h (by simp)
    · rename_i hOpt m hb
      obtain ⟨h1, h2⟩ : 1 ≤ (s.takeWhile (fun c => c = '#')).length ∧
          (s.takeWhile (fun c => c = '#')).length ≤ 6 := by assumption
      rw [Option.some_inj] at h
      subst h
      exact ⟨m, h1, h2, hb, rfl, rfl, rfl, rfl⟩
  · exact absurd h (by simp)

lemma matchHeadingAt_level {s : List Char} {hm : HMatch}
    (h : matchHeadingAt s = some hm) : 1 ≤ hm.level ∧ hm.level ≤ 6 := by
  obtain ⟨m, h1, h2, _, hl, _⟩ := matchHeadingAt_inv h
  rw [hl]
  exact ⟨h1, h2⟩

lemma matchHeadingAt_rest_length {s : List Char} {hm : HMatch}
    (h : matchHeadingAt s = some hm) : hm.rest.length < s.length := by
  obtain ⟨m, h1, _, hb, _, _, hrest, _⟩ := matchHeadingAt_inv h
  set r := (s.takeWhile (fun c => c = '#')).length with hrdef
  have hlen : hm.rest.length ≤ ((s.drop r).drop m).length := by
    rw [hrest]
    exact List.Sublist.length_le (List.dropWhile_sublist _)
  have h2 : ((s.drop r).drop m).length = s.length - r - m := by
    simp [List.length_drop]
    omega
  have h3 : r ≤ s.length := List.Sublist.length_le (List.takeWhile_sublist _)
  omega

/-- The scanner behind `parse_sections`: walk the input left to right; at each
line start, try the heading regex; on a match, flush the accumulated span
(if it is not whitespace-only) as a content node, emit the heading node
(level = number of `'#'`, text = stripped group 2), and continue after the
match; otherwise move one character forward.  `acc` holds the characters
since the previous match end (`content[last_pos:match.start()]`).
The `fuel` argument only bounds the recursion depth: each recursive call
strictly shrinks `s` (a match consumes at least one character,
`matchHeadingAt_rest_length`), so with `fuel = s.length` the fuel-zero case
is reached only at `s = []`, where it performs exactly the end-of-input
flush of the remainder. -/
def scanNodes : Nat → List Char → Bool → List Char → List Node
  | 0, _, _, acc => if nonWs acc then [Node.content acc] else []
  | Nat.succ fuel, s, lineStart, acc =>
    if lineStart then
      match matchHeadingAt s with
      | some hm =>
        (if nonWs acc then [Node.content acc] else []) ++
          Node.heading hm.level (pyStrip hm.g2) :: scanNodes fuel hm.rest false []
      | none =>
        match s with
        | [] => if nonWs acc then [Node.content acc] else []
        | c :: cs => scanNodes fuel cs (c = '\n') (acc ++ [c])
    else
      match s with
      | [] => if nonWs acc then [Node.content acc] else []
      | c :: cs => scanNodes fuel cs (c = '\n') (acc ++ [c])

/-- Embedding of `parse_sections` (convert.py, lines 84-107): scan `content`
with `re.finditer` of `^(#{1,6})\s+(.+)$` (MULTILINE), turning matches into
heading nodes and the non-blank gaps between them into content nodes.
Position 0 is a line start. -/
def parse_sections (content : List Char) : List Node :=
  scanNodes content.length content true []

example : parse_sections "# Title\nhello\n## Sub\n".toList =
    [Node.heading 1 "Title".toList, Node.content "\nhello\n".toList,
     Node.heading 2 "Sub".toList] := by decide
example : parse_sections "##\nx".toList = [Node.heading 2 "x".toList] := by decide
example : parse_sections "####### seven\n".toList =
    [Node.content "####### seven\n".toList] := by decide
example : parse_sections "  \n \n".toList = [] := by decide
example : parse_sections "a\n# T\n\n  \n".toList =
    [Node.content "a\n".toList, Node.heading 1 "T".toList] := by decide
example : parse_sections "body # not heading".toList =
    [Node.content "body # not heading".toList] := by decide
example : parse_sections "x ## inline\n".toList =
    [Node.content "x ## inline\n".toList] := by decide
example : parse_sections "##  ".toList = [Node.heading 2 []] := by decide

/-- A piece of the scanned document: either a gap between matches (kept
verbatim, even when whitespace-only) or one heading match, with `raw` the
exact matched characters and `text` the heading text. -/
inductive Piece where
  | span (s : List Char)
  | hmatch (level : Nat) (raw : List Char) (text : List Char)
deriving DecidableEq, Repr

/-- The characters a piece occupies in the original document. -/
def pieceRaw : Piece → List Char
  | Piece.span s => s
  | Piece.hmatch _ raw _ => raw

/-- The parser nodes a piece contributes: a non-blank gap becomes exactly one
content node carrying the gap verbatim, a blank gap none, a match one
heading node. -/
def pieceNodes : Piece → List Node
  | Piece.span s => if nonWs s then [Node.content s] else []
  | Piece.hmatch lv _ t => [Node.heading lv t]

/-- Same scan as `scanNodes`, but recording the full decomposition of the
input: every gap (blank or not) and the raw text of every match. -/
def scanPieces : Nat → List Char → Bool → List Char → List Piece
  | 0, _, _, acc => if acc = [] then [] else [Piece.span acc]
  | Nat.succ fuel, s, lineStart, acc =>
    if lineStart then
      match matchHeadingAt s with
      | some hm =>
        (if acc = [] then [] else [Piece.span acc]) ++
          Piece.hmatch hm.level hm.raw (pyStrip hm.g2) :: scanPieces fuel hm.rest false []
      | none =>
        match s with
        | [] => if acc = [] then [] else [Piece.span acc]
        | c :: cs => scanPieces fuel cs (c = '\n') (acc ++ [c])
    else
      match s with
      | [] => if acc = [] then [] else [Piece.span acc]
      | c :: cs => scanPieces fuel cs (c = '\n') (acc ++ [c])

/-- A single line matching the spec's per-line reading of the heading rule,
"1 to 6 marker characters, then whitespace, then text": returns the level
(count of markers) and the trimmed text.  Written from the spec's words
(section 4.2) for comparison with `parse_sections`. -/
def specLineHeading (l : List Char) : Option (Nat × List Char) :=
  if 1 ≤ (l.takeWhile (fun c => c = '#')).length ∧
      (l.takeWhile (fun c => c = '#')).length ≤ 6 then
    match l.drop (l.takeWhile (fun c => c = '#')).length with
    | c :: rest =>
      if pyWs c ∧ rest ≠ [] then
        some ((l.takeWhile (fun c => c = '#')).length,
          pyStrip (l.drop ((l.takeWhile (fun c => c = '#')).length + 1)))
      else none
    | [] => none
  else none

example : specLineHeading "## Sub".toList = some (2, "Sub".toList) := by decide
example : specLineHeading "##".toList = none := by decide
example : specLineHeading "x".toList = none := by decide
example : specLineHeading "####### x".toList = none := by decide

/-- An output line of the HTML builder, tagged by which `append` site of
`HtmlBuilder` produced it; `renderItem` below recovers the exact string the
Python code appends.  `depth` records the stack depth used for the
indentation at the moment of emission. -/
inductive Item where
  | close
  | openTag (depth level : Nat) (isOpen : Bool)
  | summary (depth level : Nat) (text : List Char)
  | heading (depth level : Nat) (text : List Char)
  | contentLine (s : List Char)
deriving DecidableEq, Repr

/-- `"  " * n`: the indentation produced by `HtmlBuilder._pad`. -/
def padStr (n : Nat) : List Char := List.replicate (2 * n) ' '

/-- The exact characters each `Item` stands for in `self.lines`. -/
def renderItem : Item → List Char
  | Item.close => "</details>".toList
  | Item.openTag d lv op =>
      padStr d ++ "<details class=\"niveau".toList ++ (Nat.repr lv).toList ++
        "\"".toList ++ (if op then " open".toList else []) ++ ">".toList
  | Item.summary d lv t =>
      padStr d ++ "  <summary class=\"summary-h".toList ++ (Nat.repr lv).toList ++
        "\">".toList ++ t ++ "</summary>".toList
  | Item.heading d lv t =>
      padStr d ++ "<h".toList ++ (Nat.repr lv).toList ++ ">".toList ++ t ++
        "</h".toList ++ (Nat.repr lv).toList ++ ">".toList
  | Item.contentLine s => s

/-- Embedding of the `HtmlBuilder` state (convert.py, lines 130-175).
The Python stack grows at the end of the list; here the HEAD of `stack` is
the top (innermost open container), so Python's `stack[-1]` is `stack.head`,
`append` is cons and `pop` drops the head.  `lines` keeps the source's
append order. -/
structure HtmlBuilder where
  collapsible_levels : List Nat
  open_by_default : List Nat
  lines : List Item
  stack : List Nat
deriving DecidableEq, Repr

/-- `HtmlBuilder.__init__`. -/
def HtmlBuilder.init (collapsible_levels open_by_default : List Nat) : HtmlBuilder :=
  ⟨collapsible_levels, open_by_default, [], []⟩

/-- The loop of `HtmlBuilder._close_until`:
`while self.stack and self.stack[-1] >= level: emit "</details>"; pop`. -/
def closeUntilAux (level : Nat) : List Nat → List Item → List Nat × List Item
  | [], acc => ([], acc)
  | t :: rest, acc =>
    if level ≤ t then closeUntilAux level rest (acc ++ [Item.close])
    else (t :: rest, acc)

/-- `HtmlBuilder._close_until`. -/
def HtmlBuilder.close_until (b : HtmlBuilder) (level : Nat) : HtmlBuilder :=
  let p := closeUntilAux level b.stack b.lines
  { b with stack := p.1, lines := p.2 }

/-- `HtmlBuilder.add_heading` (convert.py, lines 150-159): close open
containers whose level is ≥ `level`; then either open a collapsible
container (`<details>` plus `<summary>`, pushed on the stack) when `level`
is collapsible, or emit a plain `<h{level}>` tag. -/
def HtmlBuilder.add_heading (b : HtmlBuilder) (level : Nat) (text : List Char) : HtmlBuilder :=
  let b1 := b.close_until level
  let d := b1.stack.length
  if level ∈ b1.collapsible_levels then
    { b1 with
      lines := b1.lines ++
        [Item.openTag d level (decide (level ∈ b1.open_by_default)),
         Item.summary d level text],
      stack := level :: b1.stack }
  else
    { b1 with lines := b1.lines ++ [Item.heading d level text] }

/-- The line-break characters of Python `str.splitlines()`: LF, VT, FF, CR,
FS, GS, RS, NEL, LINE SEPARATOR and PARAGRAPH SEPARATOR (a `"\r\n"` pair
counts as a single break). -/
def isLineBreak (c : Char) : Bool :=
  decide (c.toNat = 10 ∨ c.toNat = 11 ∨ c.toNat = 12 ∨ c.toNat = 13 ∨
    c.toNat = 28 ∨ c.toNat = 29 ∨ c.toNat = 30 ∨ c.toNat = 133 ∨
    c.toNat = 8232 ∨ c.toNat = 8233)

/-- The scan behind `str.splitlines()`: `acc` holds the current line in
reverse; each break character ends a line, `"\r\n"` ends a single line,
and a break at the very end of the string produces no trailing empty line. -/
def splitlinesGo : List Char → List Char → List (List Char)
  | [], acc => [acc.reverse]
  | c :: cs, acc =>
    if isLineBreak c then
      if c = '\r' then
        match cs with
        | '\n' :: [] => [acc.reverse]
        | '\n' :: c2 :: cs2 => acc.reverse :: splitlinesGo (c2 :: cs2) []
        | [] => [acc.reverse]
        | c2 :: cs2 => acc.reverse :: splitlinesGo (c2 :: cs2) []
      else
        match cs with
        | [] => [acc.reverse]
        | c2 :: cs2 => acc.reverse :: splitlinesGo (c2 :: cs2) []
    else splitlinesGo cs (c :: acc)

/-- Python `str.splitlines()`: the empty string has no lines. -/
def splitlinesPy : List Char → List (List Char)
  | [] => []
  | c :: cs => splitlinesGo (c :: cs) []

example : splitlinesPy "a\nb\n".toList = ["a".toList, "b".toList] := by decide
example : splitlinesPy "a\n\nb".toList = ["a".toList, [], "b".toList] := by decide

/-- `md_to_html` (convert.py, lines 114-123): blank input renders to the
empty string, otherwise the external python-markdown renderer — modelled as
the black-box parameter `render` — produces the HTML fragment. -/
def md_to_html (render : List Char → List Char) (text : List Char) : List Char :=
  if nonWs text then render text else []

/-- `HtmlBuilder.add_content` (convert.py, lines 161-167): render the block;
emit nothing when the rendering is empty, otherwise append each rendered
line, indented to depth `len(stack) + 1`, blank lines kept empty. -/
def HtmlBuilder.add_content (render : List Char → List Char) (b : HtmlBuilder)
    (text : List Char) : HtmlBuilder :=
  let html := md_to_html render text
  if html = [] then b
  else
    { b with
      lines := b.lines ++ (splitlinesPy html).map (fun l =>
        Item.contentLine (if nonWs l then padStr (b.stack.length + 1) ++ l else [])) }

/-- The loop of `HtmlBuilder.close_all`:
`while self.stack: emit "</details>"; pop`. -/
def closeAllAux : List Nat → List Item → List Nat × List Item
  | [], acc => ([], acc)
  | _ :: rest, acc => closeAllAux rest (acc ++ [Item.close])

/-- `HtmlBuilder.close_all` (convert.py, lines 169-172). -/
def HtmlBuilder.close_all (b : HtmlBuilder) : HtmlBuilder :=
  let p := closeAllAux b.stack b.lines
  { b with stack := p.1, lines := p.2 }

/-- `HtmlBuilder.get_html`: `"\n".join(self.lines)`. -/
def HtmlBuilder.get_html (b : HtmlBuilder) : List Char :=
  joinNl (b.lines.map renderItem)

/-- The node-processing loop of `convert` (convert.py, lines 263-268):
headings go to `add_heading`, content to `add_content`. -/
def runNodes (render : List Char → List Char) (b : HtmlBuilder) : List Node → HtmlBuilder
  | [] => b
  | Node.heading lv t :: ns => runNodes render (b.add_heading lv t) ns
  | Node.content t :: ns => runNodes render (b.add_content render t) ns

/-- Lexicographic order on character lists by code point: Python's `<=` on
strings, the key order of `sorted`. -/
def lexLe : List Char → List Char → Bool
  | [], _ => true
  | _ :: _, [] => false
  | a :: as, b :: bs => if a < b then true else if b < a then false else lexLe as bs

/-- Python `name.lower()` (ASCII case folding suffices for the names at hand). -/
def lowerName (n : List Char) : List Char := n.map Char.toLower

/-- The fixed name `"index.html"`. -/
def indexHtmlName : List Char := "index.html".toList

/-- The `*.html` glob suffix. -/
def htmlSuffix : List Char := ".html".toList

/-- `Path.stem`: the file name without its suffix.  pathlib splits at the
last `'.'` only when it is neither the leading character nor the last one
(the `0 < i < len-1` guard on `i = name.rfind('.')` in pathlib), so names
without a dot, dotfiles such as `".html"` and names ending in a dot are
kept whole. -/
def stemName (n : List Char) : List Char :=
  let afterDot := (n.reverse.takeWhile (fun c => ¬ c = '.')).length
  if afterDot = n.length then n
  else if 0 < n.length - (afterDot + 1) ∧ n.length - (afterDot + 1) < n.length - 1 then
    n.take (n.length - (afterDot + 1))
  else n

/-- Display name of a listed file (generate_index.py, line 29):
`f.stem.replace("-", " ").replace("_", " ")`. -/
def displayName (n : List Char) : List Char :=
  (stemName n).map (fun c => if c = '-' then ' ' else if c = '_' then ' ' else c)

/-- One `<li>` entry of the generated index: the link target (`f.name`) and
the displayed text. -/
structure IndexEntry where
  href : List Char
  display : List Char
deriving DecidableEq, Repr

/-- Embedding of the listing part of `generate_index`
(generate_index.py, lines 13-32), on the directory's file names:

    html_files = sorted([f for f in directory.glob("*.html")
                         if f.name.lower() != "index.html"])
    items: one entry per file, display name from the stem.

`directory.glob("*.html")` keeps the names with suffix `".html"`
(case-sensitively, as on a POSIX filesystem); `sorted` on `Path`s compares
the name strings. -/
def generate_index (names : List (List Char)) : List IndexEntry :=
  let html_files := List.insertionSort (fun a b => lexLe a b = true)
    (names.filter (fun n => htmlSuffix.isSuffixOf n && decide (lowerName n ≠ indexHtmlName)))
  html_files.map (fun n => ⟨n, displayName n⟩)

example : generate_index ["b.html".toList, "a.html".toList, "index.html".toList] =
    [⟨"a.html".toList, "a".toList⟩, ⟨"b.html".toList, "b".toList⟩] := by decide
example : generate_index ["Index.html".toList] = [] := by decide
example : generate_index ["my_doc-name.html".toList] =
    [⟨"my_doc-name.html".toList, "my doc name".toList⟩] := by decide

lemma lexLe_total (a : List Char) : ∀ b, lexLe a b = true ∨ lexLe b a = true := by
  induction a with
  | nil => intro b; left; rfl
  | cons x xs ih =>
    intro b
    cases b with
    | nil => right; rfl
    | cons y ys =>
      by_cases h1 : x < y
      · left; simp [lexLe, h1]
      · by_cases h2 : y < x
        · right; simp [lexLe, h2]
        · rcases ih ys with h | h
          · left; simp [lexLe, h1, h2, h]
          · right; simp [lexLe, h1, h2, h]

lemma lexLe_trans : ∀ {a b c : List Char},
    lexLe a b = true → lexLe b c = true → lexLe a c = true := by
  intro a
  induction a with
  | nil => intro b c _ _; rfl
  | cons x xs ih =>
    intro b c hab hbc
    cases b with
    | nil => simp [lexLe] at hab
    | cons y ys =>
      cases c with
      | nil => simp [lexLe] at hbc
      | cons z zs =>
        simp only [lexLe] at hab hbc ⊢
        by_cases h1 : x < y
        · by_cases h2 : y < z
          · simp [lt_trans h1 h2]
          · by_cases h3 : z < y
            · simp [h2, h3] at hbc
            · have hyz : y = z := le_antisymm (not_lt.1 h3) (not_lt.1 h2)
              simp [hyz ▸ h1]
        · by_cases h4 : y < x
          · simp [h1, h4] at hab
          · have hxy : x = y := le_antisymm (not_lt.1 h4) (not_lt.1 h1)
            subst hxy
            rw [if_neg (lt_irrefl x), if_neg (lt_irrefl x)] at hab
            by_cases h2 : x < z
            · simp [h2]
            · by_cases h3 : z < x
              · simp [h2, h3] at hbc
              · rw [if_neg h2, if_neg h3] at hbc ⊢
                exact ih hab hbc

instance : IsTotal (List Char) (fun a b => lexLe a b = true) := ⟨lexLe_total⟩

instance : IsTrans (List Char) (fun a b => lexLe a b = true) :=
  ⟨fun _ _ _ => lexLe_trans⟩

def c8name : List Char := "Index.html".toList

/-- C8, counterexample: `Index.html` matches `*.html` and is not named
`index.html`, yet index generation does not list it, because the code
excludes every name whose lowercasing is `index.html`.  This refutes
"index generation lists every *.html file except index.html". -/
theorem generate_index_misses_mixed_case :
    htmlSuffix.isSuffixOf c8name = true ∧ c8name ≠ indexHtmlName ∧
    generate_index [c8name] = [] := by decide

/-- C8 (amended): for every directory, index generation lists every `*.html`
file except those whose name lowercases to `index.html`, sorted by filename,
with exactly one link per file (the listed names are a permutation of the
qualifying names) and a display name derived by replacing hyphens and
underscores of the stem with spaces; in particular, over the files `b.html`,
`a.html` and `index.html` it yields exactly two entries with `a` before `b`. -/
theorem generate_index_spec (names : List (List Char)) :
    ((generate_index names).map IndexEntry.href).Perm
      (names.filter (fun n => htmlSuffix.isSuffixOf n &&
        decide (lowerName n ≠ indexHtmlName))) ∧
    List.Pairwise (fun a b : IndexEntry => lexLe a.href b.href = true)
      (generate_index names) ∧
    (∀ e ∈ generate_index names, e.display = displayName e.href) ∧
    generate_index ["b.html".toList, "a.html".toList, "index.html".toList] =
      [⟨"a.html".toList, "a".toList⟩, ⟨"b.html".toList, "b".toList⟩] := by
  refine ⟨?_, ?_, ?_, by decide⟩
  · unfold generate_index
    simp only [List.map_map]
    have h1 : (IndexEntry.href ∘ fun n => (⟨n, displayName n⟩ : IndexEntry)) = id := rfl
    rw [h1, List.map_id]
    exact List.perm_insertionSort _ _
  · unfold generate_index
    rw [List.pairwise_map]
    exact List.sorted_insertionSort _ _
  · unfold generate_index
    intro e he
    simp only [List.mem_map] at he
    obtain ⟨m, _, rfl⟩ := he
    rfl

/-- C10: index generation excludes a file whenever its name compares equal to
`index.html` case-insensitively (not only the exact name `index.html`): no
entry of the listing links to such a name. -/
theorem generate_index_excludes_case_insensitive (names : List (List Char))
    (n : List Char) (hlow : lowerName n = indexHtmlName) :
    n ∉ (generate_index names).map IndexEntry.href := by
  intro hmem
  unfold generate_index at hmem
  simp only [List.map_map] at hmem
  have h1 : (IndexEntry.href ∘ fun n => (⟨n, displayName n⟩ : IndexEntry)) = id := rfl
  rw [h1, List.map_id] at hmem
  have h2 : n ∈ names.filter (fun m => htmlSuffix.isSuffixOf m &&
      decide (lowerName m ≠ indexHtmlName)) :=
    (List.Perm.mem_iff (List.perm_insertionSort _ _)).1 hmem
  have h3 := List.of_mem_filter h2
  simp only [Bool.and_eq_true, decide_eq_true_eq] at h3
  exact h3.2 hlow

/-- C10, witness: `Index.html` lowercases to `index.html` and is indeed
absent from the listing of a directory containing it. -/
theorem generate_index_excludes_case_insensitive_witness :
    lowerName "Index.html".toList = indexHtmlName ∧
    "Index.html".toList ∉
      (generate_index ["Index.html".toList, "a.html".toList]).map IndexEntry.href :=
  ⟨by decide, generate_index_excludes_case_insensitive _ _ (by decide)⟩

lemma closeUntilAux_eq (level : Nat) : ∀ (st : List Nat) (acc : List Item),
    closeUntilAux level st acc =
      (st.dropWhile (fun t => decide (level ≤ t)),
       acc ++ List.replicate (st.takeWhile (fun t => decide (level ≤ t))).length
         Item.close) := by
  intro st
  induction st with
  | nil => intro acc; simp [closeUntilAux]
  | cons t rest ih =>
    intro acc
    by_cases h : level ≤ t
    · rw [closeUntilAux, if_pos h, ih]
      simp [List.dropWhile_cons, List.takeWhile_cons, h, List.replicate_succ]
    · rw [closeUntilAux, if_neg h]
      simp [List.dropWhile_cons, List.takeWhile_cons, h]

lemma closeAllAux_eq : ∀ (st : List Nat) (acc : List Item),
    closeAllAux st acc = ([], acc ++ List.replicate st.length Item.close) := by
  intro st
  induction st with
  | nil => intro acc; simp [closeAllAux]
  | cons t rest ih =>
    intro acc
    rw [closeAllAux, ih]
    simp [List.replicate_succ]

lemma add_heading_eq (b : HtmlBuilder) (level : Nat) (text : List Char) :
    (b.add_heading level text).stack =
      (if level ∈ b.collapsible_levels
        then level :: b.stack.dropWhile (fun t => decide (level ≤ t))
        else b.stack.dropWhile (fun t => decide (level ≤ t))) ∧
    (b.add_heading level text).lines =
      b.lines ++
        List.replicate (b.stack.takeWhile (fun t => decide (level ≤ t))).length
          Item.close ++
        (if level ∈ b.collapsible_levels
          then [Item.openTag (b.stack.dropWhile (fun t => decide (level ≤ t))).length
                  level (decide (level ∈ b.open_by_default)),
                Item.summary (b.stack.dropWhile (fun t => decide (level ≤ t))).length
                  level text]
          else [Item.heading (b.stack.dropWhile (fun t => decide (level ≤ t))).length
                  level text]) := by
  unfold HtmlBuilder.add_heading HtmlBuilder.close_until
  rw [closeUntilAux_eq]
  by_cases h : level ∈ b.collapsible_levels <;> simp [h]

/-- C2: on `add_heading level text`, the builder first pops and emits one
closing marker for every open container on top of the stack whose level is
≥ `level` (stopping at the first strictly smaller level or the empty stack);
then, when `level` is collapsible, it emits one opening container tag for
`level` — marked open-by-default exactly when `level` is in the
open-by-default set — and one summary line carrying the heading text, and
pushes `level`; otherwise it emits one plain heading tag and pushes nothing. -/
theorem add_heading_spec (b : HtmlBuilder) (level : Nat) (text : List Char) :
    (b.add_heading level text).stack =
      (if level ∈ b.collapsible_levels
        then level :: b.stack.dropWhile (fun t => decide (level ≤ t))
        else b.stack.dropWhile (fun t => decide (level ≤ t))) ∧
    (b.add_heading level text).lines =
      b.lines ++
        List.replicate (b.stack.takeWhile (fun t => decide (level ≤ t))).length
          Item.close ++
        (if level ∈ b.collapsible_levels
          then [Item.openTag (b.stack.dropWhile (fun t => decide (level ≤ t))).length
                  level (decide (level ∈ b.open_by_default)),
                Item.summary (b.stack.dropWhile (fun t => decide (level ≤ t))).length
                  level text]
          else [Item.heading (b.stack.dropWhile (fun t => decide (level ≤ t))).length
                  level text]) :=
  add_heading_eq b level text

/-- Closing markers among emitted items. -/
def isCloseItem : Item → Bool
  | Item.close => true
  | _ => false

/-- Opening container tags among emitted items. -/
def isOpenItem : Item → Bool
  | Item.openTag _ _ _ => true
  | _ => false

/-- Number of closing markers in a run of output. -/
def countClose (ls : List Item) : Nat := ls.countP isCloseItem

/-- Number of opening container tags in a run of output. -/
def countOpen (ls : List Item) : Nat := ls.countP isOpenItem

/-- The builder's running invariant: the opens exceed the closes by exactly
the number of currently open containers, and no prefix closes more than it
has opened. -/
def builderInv (b : HtmlBuilder) : Prop :=
  countOpen b.lines = countClose b.lines + b.stack.length ∧
  ∀ n, countClose (b.lines.take n) ≤ countOpen (b.lines.take n)

lemma prefix_le_append {l s : List Item} {k : Nat}
    (hbal : countOpen l = countClose l + k)
    (hpre : ∀ n, countClose (l.take n) ≤ countOpen (l.take n))
    (hsk : countClose s ≤ k) :
    ∀ n, countClose ((l ++ s).take n) ≤ countOpen ((l ++ s).take n) := by
  intro n
  unfold countClose countOpen at *
  rw [List.take_append_eq_append_take, List.countP_append, List.countP_append]
  rcases Nat.eq_zero_or_pos (n - l.length) with h0 | hpos
  · rw [h0]
    simpa using hpre n
  · have hn : l.length ≤ n := by omega
    rw [List.take_of_length_le hn]
    have h1 : List.countP isCloseItem ((s.take (n - l.length))) ≤
        List.countP isCloseItem s :=
      List.Sublist.countP_le _ (List.take_sublist _ _)
    omega

lemma builderInv_init (cl od : List Nat) : builderInv (HtmlBuilder.init cl od) := by
  constructor
  · rfl
  · intro n
    simp [HtmlBuilder.init, countClose, countOpen]

lemma builderInv_add_heading {b : HtmlBuilder} (h : builderInv b)
    (level : Nat) (text : List Char) : builderInv (b.add_heading level text) := by
  obtain ⟨hbal, hpre⟩ := h
  obtain ⟨hstack, hlines⟩ := add_heading_eq b level text
  set j := (b.stack.takeWhile (fun t => decide (level ≤ t))).length with hj
  have hjk : j + (b.stack.dropWhile (fun t => decide (level ≤ t))).length
      = b.stack.length := by
    rw [hj, ← List.length_append, List.takeWhile_append_dropWhile]
  have hjle : j ≤ b.stack.length := by omega
  rw [List.append_assoc] at hlines
  set X := (if level ∈ b.collapsible_levels
    then [Item.openTag (b.stack.dropWhile (fun t => decide (level ≤ t))).length
            level (decide (level ∈ b.open_by_default)),
          Item.summary (b.stack.dropWhile (fun t => decide (level ≤ t))).length
            level text]
    else [Item.heading (b.stack.dropWhile (fun t => decide (level ≤ t))).length
            level text]) with hX
  have hcc : countClose (List.replicate j Item.close ++ X) = j := by
    unfold countClose
    rw [List.countP_append, List.countP_replicate]
    have : List.countP isCloseItem X = 0 := by
      rw [hX]
      by_cases h : level ∈ b.collapsible_levels <;> simp [h, isCloseItem, List.countP_cons]
    simp [isCloseItem, this]
  have hco : countOpen (List.replicate j Item.close ++ X) =
      (if level ∈ b.collapsible_levels then 1 else 0) := by
    unfold countOpen
    rw [List.countP_append, List.countP_replicate]
    by_cases h : level ∈ b.collapsible_levels <;>
      simp [h, hX, isOpenItem, List.countP_cons]
  constructor
  · rw [hlines, hstack]
    unfold countClose countOpen at *
    simp only [List.countP_append] at *
    by_cases h : level ∈ b.collapsible_levels
    · simp only [h, if_true] at hco ⊢
      simp only [List.length_cons]
      omega
    · simp only [h, if_false] at hco ⊢
      omega
  · rw [hlines]
    refine prefix_le_append hbal hpre ?_
    rw [hcc]
    exact hjle

lemma builderInv_add_content {b : HtmlBuilder} (h : builderInv b)
    (render : List Char → List Char) (text : List Char) :
    builderInv (b.add_content render text) := by
  obtain ⟨hbal, hpre⟩ := h
  unfold HtmlBuilder.add_content
  by_cases he : md_to_html render text = []
  · simpa [he] using ⟨hbal, hpre⟩
  · simp only [he, if_neg, if_false]
    set S := (splitlinesPy (md_to_html render text)).map (fun l =>
      Item.contentLine (if nonWs l then padStr (b.stack.length + 1) ++ l else []))
      with hS
    have hc : countClose S = 0 := by
      unfold countClose
      rw [hS, List.countP_map]
      have : (isCloseItem ∘ fun l =>
          Item.contentLine (if nonWs l then padStr (b.stack.length + 1) ++ l else []))
          = fun _ => false := by
        funext l; rfl
      rw [this]
      simp
    have ho : countOpen S = 0 := by
      unfold countOpen
      rw [hS, List.countP_map]
      have : (isOpenItem ∘ fun l =>
          Item.contentLine (if nonWs l then padStr (b.stack.length + 1) ++ l else []))
          = fun _ => false := by
        funext l; rfl
      rw [this]
      simp
    constructor
    · show countOpen (b.lines ++ S) = countClose (b.lines ++ S) + b.stack.length
      unfold countClose countOpen at *
      rw [List.countP_append, List.countP_append]
      omega
    · exact prefix_le_append hbal hpre (by omega)

lemma builderInv_close_all {b : HtmlBuilder} (h : builderInv b) :
    builderInv b.close_all ∧ countClose b.close_all.lines = countOpen b.close_all.lines ∧
      b.close_all.stack = [] := by
  obtain ⟨hbal, hpre⟩ := h
  unfold HtmlBuilder.close_all
  rw [closeAllAux_eq]
  have hcc : countClose (List.replicate b.stack.length Item.close) = b.stack.length := by
    unfold countClose
    rw [List.countP_replicate]
    simp [isCloseItem]
  have hco : countOpen (List.replicate b.stack.length Item.close) = 0 := by
    unfold countOpen
    rw [List.countP_replicate]
    simp [isOpenItem]
  have hbal2 : countOpen (b.lines ++ List.replicate b.stack.length Item.close) =
      countClose (b.lines ++ List.replicate b.stack.length Item.close) := by
    unfold countClose countOpen at *
    rw [List.countP_append, List.countP_append]
    omega
  refine ⟨⟨by simpa using hbal2, ?_⟩, by simpa using hbal2.symm, rfl⟩
  exact prefix_le_append hbal hpre (by omega)

lemma builderInv_runNodes (render : List Char → List Char) {b : HtmlBuilder}
    (h : builderInv b) : ∀ ns : List Node, builderInv (runNodes render b ns) := by
  intro ns
  induction ns generalizing b with
  | nil => simpa [runNodes] using h
  | cons n rest ih =>
    cases n with
    | heading lv t => exact ih (builderInv_add_heading h lv t)
    | content t => exact ih (builderInv_add_content h render t)

/-- C3: for every node sequence processed from a fresh builder followed by
`close_all`, the number of emitted closing markers equals the number of
emitted opening container tags, every prefix of the output has at least as
many opens as closes, and the stack ends empty. -/
theorem builder_output_balanced (render : List Char → List Char)
    (cl od : List Nat) (ns : List Node) :
    countClose ((runNodes render (HtmlBuilder.init cl od) ns).close_all).lines =
      countOpen ((runNodes render (HtmlBuilder.init cl od) ns).close_all).lines ∧
    (∀ n,
      countClose (((runNodes render (HtmlBuilder.init cl od) ns).close_all).lines.take n) ≤
      countOpen (((runNodes render (HtmlBuilder.init cl od) ns).close_all).lines.take n)) ∧
    ((runNodes render (HtmlBuilder.init cl od) ns).close_all).stack = [] := by
  have h := builderInv_runNodes render (builderInv_init cl od) ns
  obtain ⟨hinv, hfin, hstk⟩ := builderInv_close_all h
  exact ⟨hfin, hinv.2, hstk⟩

/-- C7: with collapsible set `{2, 3, 4}`, processing heading levels 2, 4, 2:
after the first two headings the level-2 container is still open with the
level-4 container nested inside it (stack `[4, 2]`, top first, and no
closing marker emitted yet); the second level-2 heading emits exactly two
closing markers (for the 4 and the first 2) before its own opening tag and
summary; and `close_all` then emits exactly one closing marker, leaving the
stack empty. -/
theorem builder_scenario_2_4_2 (t1 t2 t3 : List Char) :
    (((HtmlBuilder.init [2, 3, 4] []).add_heading 2 t1).add_heading 4 t2).stack
      = [4, 2] ∧
    countClose (((HtmlBuilder.init [2, 3, 4] []).add_heading 2 t1).add_heading
      4 t2).lines = 0 ∧
    ((((HtmlBuilder.init [2, 3, 4] []).add_heading 2 t1).add_heading 4 t2).add_heading
      2 t3).lines =
      (((HtmlBuilder.init [2, 3, 4] []).add_heading 2 t1).add_heading 4 t2).lines ++
        [Item.close, Item.close, Item.openTag 0 2 false, Item.summary 0 2 t3] ∧
    ((((HtmlBuilder.init [2, 3, 4] []).add_heading 2 t1).add_heading 4 t2).add_heading
      2 t3).stack = [2] ∧
    (((((HtmlBuilder.init [2, 3, 4] []).add_heading 2 t1).add_heading 4 t2).add_heading
      2 t3).close_all).lines =
      ((((HtmlBuilder.init [2, 3, 4] []).add_heading 2 t1).add_heading 4 t2).add_heading
        2 t3).lines ++ [Item.close] ∧
    (((((HtmlBuilder.init [2, 3, 4] []).add_heading 2 t1).add_heading 4 t2).add_heading
      2 t3).close_all).stack = [] :=
  ⟨rfl, rfl, rfl, rfl, rfl, rfl⟩

lemma dropWhile_all_lt (level : Nat) : ∀ (st : List Nat),
    List.Pairwise (fun a c => c < a) st →
    ∀ x ∈ st.dropWhile (fun t => decide (level ≤ t)), x < level := by
  intro st
  induction st with
  | nil => simp
  | cons t rest ih =>
    intro hp x hx
    rw [List.dropWhile_cons] at hx
    by_cases h : level ≤ t
    · simp only [h, decide_True, if_true] at hx
      exact ih (List.pairwise_cons.1 hp).2 x hx
    · simp only [h, decide_False, if_false] at hx
      rcases List.mem_cons.1 hx with rfl | hx2
      · omega
      · have := (List.pairwise_cons.1 hp).1 x hx2
        omega

/-- The C9 stack invariant: levels strictly decrease from the top of the
stack down (so, read bottom to top, they strictly increase), and every open
level is one of the configured collapsible levels. -/
def stackInv (b : HtmlBuilder) : Prop :=
  List.Pairwise (fun a c => c < a) b.stack ∧
  ∀ l ∈ b.stack, l ∈ b.collapsible_levels

lemma stackInv_init (cl od : List Nat) : stackInv (HtmlBuilder.init cl od) := by
  constructor
  · exact List.Pairwise.nil
  · intro l hl
    simp [HtmlBuilder.init] at hl

lemma stackInv_add_heading {b : HtmlBuilder} (h : stackInv b)
    (level : Nat) (text : List Char) : stackInv (b.add_heading level text) := by
  obtain ⟨hp, hmem⟩ := h
  obtain ⟨hstack, -⟩ := add_heading_eq b level text
  have hcl : (b.add_heading level text).collapsible_levels = b.collapsible_levels := by
    unfold HtmlBuilder.add_heading HtmlBuilder.close_until
    by_cases hc : level ∈ b.collapsible_levels <;> simp [hc]
  have hsub : (b.stack.dropWhile (fun t => decide (level ≤ t))).Sublist b.stack :=
    List.dropWhile_sublist _
  have hpd : List.Pairwise (fun a c => c < a)
      (b.stack.dropWhile (fun t => decide (level ≤ t))) :=
    List.Pairwise.sublist hsub hp
  constructor
  · rw [hstack]
    by_cases hc : level ∈ b.collapsible_levels
    · simp only [hc, if_true]
      exact List.pairwise_cons.2 ⟨dropWhile_all_lt level b.stack hp, hpd⟩
    · simp only [hc, if_false]
      exact hpd
  · rw [hstack, hcl]
    by_cases hc : level ∈ b.collapsible_levels
    · simp only [hc, if_true]
      intro l hl
      rcases List.mem_cons.1 hl with rfl | hl2
      · exact hc
      · exact hmem l (hsub.mem hl2)
    · simp only [hc, if_false]
      intro l hl
      exact hmem l (hsub.mem hl)

lemma stackInv_add_content {b : HtmlBuilder} (h : stackInv b)
    (render : List Char → List Char) (text : List Char) :
    stackInv (b.add_content render text) := by
  obtain ⟨hp, hmem⟩ := h
  unfold HtmlBuilder.add_content
  by_cases he : md_to_html render text = [] <;> simp [he] <;> exact ⟨hp, hmem⟩

lemma stackInv_runNodes (render : List Char → List Char) {b : HtmlBuilder}
    (h : stackInv b) : ∀ ns : List Node, stackInv (runNodes render b ns) := by
  intro ns
  induction ns generalizing b with
  | nil => simpa [runNodes] using h
  | cons n rest ih =>
    cases n with
    | heading lv t => exact ih (stackInv_add_heading h lv t)
    | content t => exact ih (stackInv_add_content h render t)

lemma runNodes_collapsible (render : List Char → List Char) (b : HtmlBuilder) :
    ∀ ns : List Node, (runNodes render b ns).collapsible_levels = b.collapsible_levels := by
  intro ns
  induction ns generalizing b with
  | nil => rfl
  | cons n rest ih =>
    cases n with
    | heading lv t =>
      rw [runNodes, ih]
      unfold HtmlBuilder.add_heading HtmlBuilder.close_until
      by_cases hc : lv ∈ b.collapsible_levels <;> simp [hc]
    | content t =>
      rw [runNodes, ih]
      unfold HtmlBuilder.add_content
      by_cases he : md_to_html render t = [] <;> simp [he]

/-- C9: after any sequence of builder operations from a fresh builder, the
stack is strictly increasing from bottom to top (strictly decreasing from
its head, which is the top), every element of the stack belongs to the
configured collapsible set, no level appears twice on it, and the same
holds (trivially) after the final `close_all`, whose stack is empty. -/
theorem builder_stack_invariant (render : List Char → List Char)
    (cl od : List Nat) (ns : List Node) :
    List.Pairwise (fun a c => c < a) (runNodes render (HtmlBuilder.init cl od) ns).stack ∧
    (∀ l ∈ (runNodes render (HtmlBuilder.init cl od) ns).stack, l ∈ cl) ∧
    (runNodes render (HtmlBuilder.init cl od) ns).stack.Nodup ∧
    ((runNodes render (HtmlBuilder.init cl od) ns).close_all).stack = [] := by
  obtain ⟨hp, hmem⟩ := stackInv_runNodes render (stackInv_init cl od) ns
  refine ⟨hp, ?_, ?_, ?_⟩
  · intro l hl
    have := hmem l hl
    rwa [runNodes_collapsible] at this
  · exact List.Pairwise.imp (fun h => ne_of_gt h) hp
  · unfold HtmlBuilder.close_all
    rw [closeAllAux_eq]

lemma splitNl_ne_nil : ∀ s : List Char, splitNl s ≠ [] := by
  intro s
  cases s with
  | nil => simp [splitNl]
  | cons c cs =>
    rw [splitNl]
    by_cases h : c = '\n'
    · simp [h]
    · simp only [h, if_false]
      rcases hs : splitNl cs with _ | ⟨l, ls⟩ <;> simp

lemma joinNl_cons_cons (c : Char) (l : List Char) (ls : List (List Char)) :
    joinNl ((c :: l) :: ls) = c :: joinNl (l :: ls) := by
  cases ls <;> rfl

lemma joinNl_splitNl : ∀ s : List Char, joinNl (splitNl s) = s := by
  intro s
  induction s with
  | nil => rfl
  | cons c cs ih =>
    rw [splitNl]
    by_cases h : c = '\n'
    · simp only [h, if_true]
      rcases hs : splitNl cs with _ | ⟨l, ls⟩
      · exact absurd hs (splitNl_ne_nil cs)
      · rw [hs] at ih
        show joinNl ([] :: l :: ls) = '\n' :: cs
        rw [joinNl, ← ih]
        simp
    · simp only [h, if_false]
      rcases hs : splitNl cs with _ | ⟨l, ls⟩
      · exact absurd hs (splitNl_ne_nil cs)
      · rw [hs] at ih
        rw [joinNl_cons_cons, ih]

lemma splitNl_no_nl : ∀ s : List Char, ∀ l ∈ splitNl s, '\n' ∉ l := by
  intro s
  induction s with
  | nil => intro l hl; simp [splitNl] at hl; simp [hl]
  | cons c cs ih =>
    intro l hl
    rw [splitNl] at hl
    by_cases h : c = '\n'
    · simp only [h, if_true] at hl
      rcases List.mem_cons.1 hl with rfl | hl2
      · simp
      · exact ih l hl2
    · simp only [h, if_false] at hl
      rcases hs : splitNl cs with _ | ⟨m, ms⟩
      · exact absurd hs (splitNl_ne_nil cs)
      · rw [hs] at hl
        rcases List.mem_cons.1 hl with rfl | hl2
        · intro hmem
          rcases List.mem_cons.1 hmem with hc | hm
          · exact h hc.symm
          · exact ih m (hs ▸ List.mem_cons_self m ms) hm
        · exact ih l (hs ▸ List.mem_cons_of_mem m hl2)

lemma fmDelim_prefix_append {l r : List Char}
    (h : fmDelim.isPrefixOf (l ++ '\n' :: r) = true) :
    fmDelim.isPrefixOf l = true := by
  match l with
  | [] => simp [fmDelim, List.isPrefixOf] at h
  | [a] =>
    simp [fmDelim, List.isPrefixOf] at h
  | [a, b] =>
    simp [fmDelim, List.isPrefixOf] at h
  | a :: b :: c :: t =>
    simp only [List.cons_append, fmDelim, List.isPrefixOf, Bool.and_eq_true,
      beq_iff_eq] at h ⊢
    tauto

lemma nlDelim_isPrefixOf_cons (c : Char) (x : List Char) :
    nlDelim.isPrefixOf (c :: x) = ((c = '\n') && fmDelim.isPrefixOf x) := by
  show (('\n' == c) && fmDelim.isPrefixOf x) = (decide (c = '\n') && fmDelim.isPrefixOf x)
  congr 1
  cases hb : ('\n' == c)
  · have hc : ¬ c = '\n' := by
      intro hh
      subst hh
      simp at hb
    simp [hc]
  · have hc : c = '\n' := (beq_iff_eq.1 hb).symm
    simp [hc]

lemma findSub_append_no_nl (tail : List Char) :
    ∀ l : List Char, '\n' ∉ l →
    findSub nlDelim (l ++ tail) = (findSub nlDelim tail).map (fun n => n + l.length) := by
  intro l
  induction l with
  | nil =>
    intro _
    simp only [List.nil_append, List.length_nil]
    rcases findSub nlDelim tail with _ | k <;> simp
  | cons c cs ih =>
    intro h
    have hc : ¬ c = '\n' := fun hh => h (by simp [hh])
    rw [List.cons_append, findSub, nlDelim_isPrefixOf_cons]
    simp only [hc, decide_False, Bool.false_and, Bool.false_eq_true, if_false]
    rw [ih (fun hm => h (List.mem_cons_of_mem c hm))]
    rw [Option.map_map]
    rcases findSub nlDelim tail with _ | k
    · rfl
    · simp only [Option.map_some', Function.comp_apply, List.length_cons,
        Option.some.injEq]
      omega

lemma dropWhile_nl_cons (x : List Char) :
    List.dropWhile (fun c => c = '\n') ('\n' :: x) =
      List.dropWhile (fun c => c = '\n') x := by
  rw [List.dropWhile_cons]
  simp

lemma findSub_join_some : ∀ (pre after : List (List Char)),
    (∀ l ∈ pre, '\n' ∉ l) → (∀ l ∈ pre, fmDelim.isPrefixOf l = false) →
    ∃ k, findSub nlDelim ('\n' :: joinNl (pre ++ fmDelim :: after)) = some k ∧
      (('\n' :: joinNl (pre ++ fmDelim :: after)).drop (k + 4)).dropWhile
          (fun c => c = '\n') =
        (joinNl after).dropWhile (fun c => c = '\n') := by
  intro pre
  induction pre with
  | nil =>
    intro after _ _
    refine ⟨0, ?_, ?_⟩
    · cases after with
      | nil => rfl
      | cons a as => rfl
    · cases after with
      | nil => rfl
      | cons a as =>
        show (('\n' :: (fmDelim ++ '\n' :: joinNl (a :: as))).drop 4).dropWhile
            (fun c => c = '\n') = (joinNl (a :: as)).dropWhile (fun c => c = '\n')
        rw [show ('\n' :: (fmDelim ++ '\n' :: joinNl (a :: as))).drop 4 =
            '\n' :: joinNl (a :: as) from rfl]
        exact dropWhile_nl_cons _
  | cons p pre ih =>
    intro after hnl hpre
    have hpnl : '\n' ∉ p := hnl p (List.mem_cons_self p pre)
    have hM : (p :: pre) ++ fmDelim :: after = p :: (pre ++ fmDelim :: after) := rfl
    have hMne : pre ++ fmDelim :: after ≠ [] := by
      cases pre <;> simp
    have hjoin : joinNl ((p :: pre) ++ fmDelim :: after) =
        p ++ '\n' :: joinNl (pre ++ fmDelim :: after) := by
      rw [hM]
      rcases hM2 : pre ++ fmDelim :: after with _ | ⟨m, ms⟩
      · exact absurd hM2 hMne
      · rfl
    obtain ⟨k, hk, hdrop⟩ := ih after
      (fun l hl => hnl l (List.mem_cons_of_mem p hl))
      (fun l hl => hpre l (List.mem_cons_of_mem p hl))
    refine ⟨k + p.length + 1, ?_, ?_⟩
    · rw [hjoin, findSub, nlDelim_isPrefixOf_cons]
      have hnp : fmDelim.isPrefixOf (p ++ '\n' :: joinNl (pre ++ fmDelim :: after))
          = false := by
        cases hb : fmDelim.isPrefixOf (p ++ '\n' :: joinNl (pre ++ fmDelim :: after)) with
        | false => rfl
        | true =>
          have h2 := fmDelim_prefix_append hb
          rw [hpre p (List.mem_cons_self p pre)] at h2
          exact Bool.noConfusion h2
      rw [hnp]
      simp only [Bool.and_false, Bool.false_eq_true, if_false]
      rw [findSub_append_no_nl ('\n' :: joinNl (pre ++ fmDelim :: after)) p hpnl]
      rw [hk]
      simp only [Option.map_some', Option.some.injEq]
    · rw [hjoin]
      have harr : ('\n' :: (p ++ '\n' :: joinNl (pre ++ fmDelim :: after))) =
          ('\n' :: p) ++ ('\n' :: joinNl (pre ++ fmDelim :: after)) := by simp
      rw [harr]
      have hlen : k + p.length + 1 + 4 = ('\n' :: p).length + (k + 4) := by
        simp [List.length_cons]
        omega
      rw [hlen, List.drop_append]
      exact hdrop

/-- C1 (amended): for every document whose first line is exactly the
delimiter and in which the first later line that BEGINS with the delimiter
consists solely of it (the code searches for `"\n---"`, i.e. a line prefix,
not a whole line), `strip_frontmatter` returns exactly the text strictly
after that closing delimiter line, with leading blank lines trimmed — hence
the result excludes all characters between and including both delimiter
lines.  Here `pre` are the frontmatter lines (none beginning with the
delimiter) and `after` the lines following the closing delimiter line. -/
theorem strip_frontmatter_closing (doc : List Char) (pre after : List (List Char))
    (hsplit : splitNl doc = fmDelim :: (pre ++ fmDelim :: after))
    (hpre : ∀ l ∈ pre, fmDelim.isPrefixOf l = false) :
    strip_frontmatter doc = (joinNl after).dropWhile (fun c => c = '\n') := by
  have hdoc : doc = fmDelim ++ '\n' :: joinNl (pre ++ fmDelim :: after) := by
    conv_lhs => rw [← joinNl_splitNl doc, hsplit]
    rcases hM : pre ++ fmDelim :: after with _ | ⟨m, ms⟩
    · cases pre <;> simp at hM
    · rfl
  have hnl : ∀ l ∈ pre, '\n' ∉ l := by
    intro l hl
    apply splitNl_no_nl doc
    rw [hsplit]
    exact List.mem_cons_of_mem _ (List.mem_append_left _ hl)
  obtain ⟨k, hk, hdrop⟩ := findSub_join_some pre after hnl hpre
  have hpref : fmDelim.isPrefixOf doc = true := by
    rw [hdoc]
    exact List.isPrefixOf_iff_prefix.2 ⟨_, rfl⟩
  have hdrop3 : doc.drop 3 = '\n' :: joinNl (pre ++ fmDelim :: after) := by
    rw [hdoc]
    rfl
  have h7 : doc.drop (k + 3 + 4) =
      ('\n' :: joinNl (pre ++ fmDelim :: after)).drop (k + 4) := by
    rw [hdoc]
    have he : k + 3 + 4 = fmDelim.length + (k + 4) := by
      simp [fmDelim]
      omega
    rw [he, List.drop_append]
  unfold strip_frontmatter
  rw [if_pos hpref, hdrop3, hk]
  show (doc.drop (k + 3 + 4)).dropWhile (fun c => c = '\n') = _
  rw [h7]
  exact hdrop

/-- C1, witness: a well-formed frontmatter block is stripped exactly. -/
theorem strip_frontmatter_closing_witness :
    strip_frontmatter "---\ntitle: x\n---\nbody".toList = "body".toList := by
  rw [strip_frontmatter_closing "---\ntitle: x\n---\nbody".toList
    ["title: x".toList] ["body".toList] (by decide) (by decide)]
  decide

/-- C1, counterexample: in `"---\n----\n---\nbody"` the later line `"---"`
(line 3) consists solely of the delimiter, so the claim demands the text
after it, `"body"`; but the code stops at the first line merely BEGINNING
with `"---"` (the `"----"` line) and returns `"-\n---\nbody"`. -/
theorem strip_frontmatter_not_spec :
    stripFrontmatterSpec "---\n----\n---\nbody".toList = some "body".toList ∧
    strip_frontmatter "---\n----\n---\nbody".toList ≠ "body".toList := by decide

lemma splitNl_append_tail : ∀ (a b : List Char), (∀ c ∈ a, ¬ c = '\n') →
    (splitNl (a ++ b)).tail = (splitNl b).tail := by
  intro a
  induction a with
  | nil => intro b _; rfl
  | cons c cs ih =>
    intro b h
    have hc : ¬ c = '\n' := h c (List.mem_cons_self c cs)
    rw [List.cons_append, splitNl]
    simp only [hc, if_false]
    rcases hs : splitNl (cs ++ b) with _ | ⟨m, ms⟩
    · exact absurd hs (splitNl_ne_nil _)
    · have h2 := ih b (fun x hx => h x (List.mem_cons_of_mem c hx))
      rw [hs] at h2
      simpa using h2

lemma findSub_none_of_lines : ∀ (s : List Char),
    (∀ l ∈ (splitNl s).tail, fmDelim.isPrefixOf l = false) →
    findSub nlDelim s = none := by
  intro s
  induction s with
  | nil => intro _; rfl
  | cons c cs ih =>
    intro h
    rw [findSub, nlDelim_isPrefixOf_cons]
    by_cases hc : c = '\n'
    · subst hc
      have h' : ∀ l ∈ splitNl cs, fmDelim.isPrefixOf l = false := by
        intro l hl
        apply h
        rw [splitNl]
        simpa using hl
      have hhead : fmDelim.isPrefixOf cs = false := by
        rcases hs : splitNl cs with _ | ⟨h0, t0⟩
        · exact absurd hs (splitNl_ne_nil cs)
        · have hcs : cs = joinNl (h0 :: t0) := by rw [← hs, joinNl_splitNl]
          have hh0 : fmDelim.isPrefixOf h0 = false :=
            h' h0 (hs ▸ List.mem_cons_self h0 t0)
          cases t0 with
          | nil => rw [hcs]; exact hh0
          | cons m ms =>
            rw [hcs]
            show fmDelim.isPrefixOf (h0 ++ '\n' :: joinNl (m :: ms)) = false
            cases hb : fmDelim.isPrefixOf (h0 ++ '\n' :: joinNl (m :: ms)) with
            | false => rfl
            | true =>
              have h3 := fmDelim_prefix_append hb
              rw [hh0] at h3
              exact Bool.noConfusion h3
      rw [hhead]
      simp only [Bool.and_false, Bool.false_eq_true, if_false]
      rw [ih (fun l hl => h' l (List.mem_of_mem_tail hl))]
      rfl
    · simp only [hc, decide_False, Bool.false_and, Bool.false_eq_true, if_false]
      have h' : ∀ l ∈ (splitNl cs).tail, fmDelim.isPrefixOf l = false := by
        intro l hl
        apply h
        rw [splitNl]
        simp only [hc, if_false]
        rcases hs : splitNl cs with _ | ⟨m, ms⟩
        · exact absurd hs (splitNl_ne_nil cs)
        · rw [hs] at hl
          simp only [List.tail_cons] at hl
          simpa using hl
      rw [ih h']
      rfl

/-- C6 (amended): `strip_frontmatter` is the identity on every document that
does not start with the three delimiter characters, and on every document
that starts with them in which no later line BEGINS with the delimiter
(the code searches for `"\n---"`, a line prefix, so a later line such as
`"----"` already counts as a closing delimiter). -/
theorem strip_frontmatter_identity (doc : List Char)
    (h : fmDelim.isPrefixOf doc = false ∨
         ∀ l ∈ (splitNl doc).tail, fmDelim.isPrefixOf l = false) :
    strip_frontmatter doc = doc := by
  by_cases hp : fmDelim.isPrefixOf doc = true
  · rcases h with h | h
    · rw [hp] at h
      exact Bool.noConfusion h
    · obtain ⟨t, ht⟩ := List.isPrefixOf_iff_prefix.1 hp
      have hdrop3 : doc.drop 3 = t := by rw [← ht]; rfl
      have htail : (splitNl doc).tail = (splitNl t).tail := by
        rw [← ht]
        exact splitNl_append_tail fmDelim t (by decide)
      have hnone : findSub nlDelim (doc.drop 3) = none := by
        rw [hdrop3]
        apply findSub_none_of_lines
        rw [← htail]
        exact h
      unfold strip_frontmatter
      rw [if_pos hp, hnone]
  · unfold strip_frontmatter
    rw [if_neg hp]

/-- C6, witness: a document whose frontmatter never closes is returned
unchanged. -/
theorem strip_frontmatter_identity_witness :
    strip_frontmatter "---\nno closing".toList = "---\nno closing".toList :=
  strip_frontmatter_identity "---\nno closing".toList (Or.inr (by decide))

/-- C6, counterexample: `"---\n----\nbody"` begins with the delimiter line
and contains no later line consisting solely of the delimiter, so the claim
demands the identity; but the code treats the `"----"` line as a closing
delimiter and strips, returning `"-\nbody"`. -/
theorem strip_frontmatter_not_identity :
    (splitNl "---\n----\nbody".toList).headI = fmDelim ∧
    ((splitNl "---\n----\nbody".toList).tail.all
      (fun l => decide (l ≠ fmDelim))) = true ∧
    strip_frontmatter "---\n----\nbody".toList ≠ "---\n----\nbody".toList := by
  decide

lemma matchHeadingAt_raw_append {s : List Char} {hm : HMatch}
    (h : matchHeadingAt s = some hm) : hm.raw ++ hm.rest = s := by
  obtain ⟨m, _, _, _, _, hg2, hrest, hraw⟩ := matchHeadingAt_inv h
  obtain ⟨t, ht⟩ := @List.takeWhile_prefix _ s (fun c => decide (c = '#'))
  have hdropr : s.drop (s.takeWhile (fun c => decide (c = '#'))).length = t := by
    have h2 := List.drop_left (s.takeWhile (fun c => decide (c = '#'))) t
    rw [ht] at h2
    exact h2
  rw [hraw, hg2, hrest, List.append_assoc, List.append_assoc,
    List.takeWhile_append_dropWhile, List.take_append_drop]
  conv_rhs => rw [← ht]
  rw [hdropr]

lemma pieceNodes_flush (acc : List Char) :
    ((if acc = [] then [] else [Piece.span acc]).map pieceNodes).flatten =
      (if nonWs acc then [Node.content acc] else []) := by
  by_cases h : acc = []
  · subst h
    simp [nonWs]
  · simp only [h, if_false, List.map_cons, List.map_nil, List.flatten_cons,
      List.flatten_nil, List.append_nil]
    rfl

lemma pieceRaw_flush (acc : List Char) :
    ((if acc = [] then [] else [Piece.span acc]).map pieceRaw).flatten = acc := by
  by_cases h : acc = [] <;> simp [h, pieceRaw]

lemma scanNodes_zero (s : List Char) (ls : Bool) (acc : List Char) :
    scanNodes 0 s ls acc = if nonWs acc then [Node.content acc] else [] := rfl

lemma scanNodes_succ (fuel : Nat) (s : List Char) (ls : Bool) (acc : List Char) :
    scanNodes (fuel + 1) s ls acc =
      if ls then
        match matchHeadingAt s with
        | some hm =>
          (if nonWs acc then [Node.content acc] else []) ++
            Node.heading hm.level (pyStrip hm.g2) :: scanNodes fuel hm.rest false []
        | none =>
          match s with
          | [] => if nonWs acc then [Node.content acc] else []
          | c :: cs => scanNodes fuel cs (c = '\n') (acc ++ [c])
      else
        match s with
        | [] => if nonWs acc then [Node.content acc] else []
        | c :: cs => scanNodes fuel cs (c = '\n') (acc ++ [c]) := rfl

lemma scanPieces_zero (s : List Char) (ls : Bool) (acc : List Char) :
    scanPieces 0 s ls acc = if acc = [] then [] else [Piece.span acc] := rfl

lemma scanPieces_succ (fuel : Nat) (s : List Char) (ls : Bool) (acc : List Char) :
    scanPieces (fuel + 1) s ls acc =
      if ls then
        match matchHeadingAt s with
        | some hm =>
          (if acc = [] then [] else [Piece.span acc]) ++
            Piece.hmatch hm.level hm.raw (pyStrip hm.g2) ::
              scanPieces fuel hm.rest false []
        | none =>
          match s with
          | [] => if acc = [] then [] else [Piece.span acc]
          | c :: cs => scanPieces fuel cs (c = '\n') (acc ++ [c])
      else
        match s with
        | [] => if acc = [] then [] else [Piece.span acc]
        | c :: cs => scanPieces fuel cs (c = '\n') (acc ++ [c]) := rfl

lemma scanPieces_nodes : ∀ (fuel : Nat) (s : List Char) (ls : Bool) (acc : List Char),
    ((scanPieces fuel s ls acc).map pieceNodes).flatten = scanNodes fuel s ls acc := by
  intro fuel
  induction fuel with
  | zero =>
    intro s ls acc
    rw [scanPieces_zero, scanNodes_zero]
    exact pieceNodes_flush acc
  | succ fuel ih =>
    intro s ls acc
    rw [scanPieces_succ, scanNodes_succ]
    cases ls with
    | false =>
      cases s with
      | nil => simpa using pieceNodes_flush acc
      | cons c cs => simpa using ih cs (c = '\n') (acc ++ [c])
    | true =>
      rcases hmm : matchHeadingAt s with _ | hm
      · simp only [hmm]
        cases s with
        | nil => simpa using pieceNodes_flush acc
        | cons c cs => simpa using ih cs (c = '\n') (acc ++ [c])
      · simp only [hmm, if_true, List.map_append, List.flatten_append, List.map_cons,
          List.flatten_cons]
        rw [pieceNodes_flush, ih]
        rfl

lemma scanPieces_raw : ∀ (fuel : Nat) (s : List Char) (ls : Bool) (acc : List Char),
    s.length ≤ fuel →
    ((scanPieces fuel s ls acc).map pieceRaw).flatten = acc ++ s := by
  intro fuel
  induction fuel with
  | zero =>
    intro s ls acc hlen
    have hs : s = [] := List.length_eq_zero.1 (Nat.le_zero.1 hlen)
    subst hs
    rw [scanPieces_zero]
    simpa using pieceRaw_flush acc
  | succ fuel ih =>
    intro s ls acc hlen
    rw [scanPieces_succ]
    cases ls with
    | false =>
      cases s with
      | nil => simpa using pieceRaw_flush acc
      | cons c cs =>
        have h2 := ih cs (c = '\n') (acc ++ [c]) (by simp at hlen; omega)
        simpa using h2
    | true =>
      rcases hmm : matchHeadingAt s with _ | hm
      · simp only [hmm]
        cases s with
        | nil => simpa using pieceRaw_flush acc
        | cons c cs =>
          have h2 := ih cs (c = '\n') (acc ++ [c]) (by simp at hlen; omega)
          simpa using h2
      · have hrlen : hm.rest.length ≤ fuel := by
          have := matchHeadingAt_rest_length hmm
          omega
        simp only [hmm, if_true, List.map_append, List.flatten_append, List.map_cons,
          List.flatten_cons]
        rw [pieceRaw_flush, ih hm.rest false [] hrlen]
        show acc ++ (hm.raw ++ hm.rest) = acc ++ s
        rw [matchHeadingAt_raw_append hmm]

/-- C5: every document decomposes into an alternating sequence of gap spans
and heading matches whose raw texts concatenate back to the document, and
`parse_sections` is exactly the projection of that decomposition: each gap
containing a non-whitespace character becomes exactly one content node
holding the gap verbatim (not trimmed), whitespace-only gaps produce no
node, and the nodes appear in document order. -/
theorem parse_sections_decomposition (content : List Char) :
    ∃ ps : List Piece,
      (ps.map pieceRaw).flatten = content ∧
      parse_sections content = (ps.map pieceNodes).flatten :=
  ⟨scanPieces content.length content true [],
    by simpa using scanPieces_raw content.length content true [] (le_refl _),
    (scanPieces_nodes content.length content true []).symm⟩

lemma dropWhile_head_not {p : Char → Bool} : ∀ {l : List Char} {c : Char} {t : List Char},
    l.dropWhile p = c :: t → p c = false := by
  intro l
  induction l with
  | nil => intro c t h; simp [List.dropWhile] at h
  | cons a as ih =>
    intro c t h
    rw [List.dropWhile_cons] at h
    by_cases ha : p a = true
    · rw [if_pos ha] at h
      exact ih h
    · rw [if_neg ha] at h
      injection h with h1 _
      subst h1
      exact Bool.eq_false_iff.2 ha

lemma dropWhile_idem (p : Char → Bool) (l : List Char) :
    (l.dropWhile p).dropWhile p = l.dropWhile p := by
  rcases h : l.dropWhile p with _ | ⟨c, t⟩
  · rfl
  · rw [List.dropWhile_cons, dropWhile_head_not h]
    simp

lemma head_not_of_dropWhile_fix {p : Char → Bool} {c : Char} {rest : List Char}
    (h : List.dropWhile p (c :: rest) = c :: rest) : p c = false := by
  by_cases hc : p c = true
  · rw [List.dropWhile_cons, if_pos hc] at h
    have hlen := congrArg List.length h
    have hle : (List.dropWhile p rest).length ≤ rest.length :=
      List.Sublist.length_le (List.dropWhile_sublist _)
    simp at hlen
    omega
  · exact Bool.eq_false_iff.2 hc

lemma pyStrip_idem (l : List Char) : pyStrip (pyStrip l) = pyStrip l := by
  unfold pyStrip
  set A := l.dropWhile pyWs with hA
  set B := A.reverse.dropWhile pyWs with hB
  have hfixA : A.dropWhile pyWs = A := by
    rw [hA]
    exact dropWhile_idem _ l
  have hA2 : B.reverse ++ (A.reverse.takeWhile pyWs).reverse = A := by
    rw [hB, ← List.reverse_append, List.takeWhile_append_dropWhile, List.reverse_reverse]
  have hstep1 : B.reverse.dropWhile pyWs = B.reverse := by
    rcases hBr : B.reverse with _ | ⟨c, t⟩
    · rfl
    · have hAeq : A = c :: (t ++ (A.reverse.takeWhile pyWs).reverse) := by
        conv_lhs => rw [← hA2, hBr]
        rfl
      have hfix2 := hfixA
      rw [hAeq] at hfix2
      have hc := head_not_of_dropWhile_fix hfix2
      rw [List.dropWhile_cons, hc]
      simp
  rw [hstep1, List.reverse_reverse]
  have hfixB : B.dropWhile pyWs = B := by
    rw [hB]
    exact dropWhile_idem _ A.reverse
  rw [hfixB]

lemma scanNodes_heading_mem : ∀ (fuel : Nat) (s : List Char) (ls : Bool)
    (acc : List Char) (lv : Nat) (t : List Char),
    Node.heading lv t ∈ scanNodes fuel s ls acc →
    1 ≤ lv ∧ lv ≤ 6 ∧ pyStrip t = t := by
  intro fuel
  induction fuel with
  | zero =>
    intro s ls acc lv t h
    rw [scanNodes_zero] at h
    by_cases hw : nonWs acc = true <;> simp [hw] at h
  | succ fuel ih =>
    intro s ls acc lv t h
    rw [scanNodes_succ] at h
    cases ls with
    | false =>
      cases s with
      | nil =>
        by_cases hw : nonWs acc = true <;> simp [hw] at h
      | cons c cs => exact ih cs (c = '\n') (acc ++ [c]) lv t h
    | true =>
      rcases hmm : matchHeadingAt s with _ | hm
      · rw [hmm] at h
        cases s with
        | nil =>
          by_cases hw : nonWs acc = true <;> simp [hw] at h
        | cons c cs => exact ih cs (c = '\n') (acc ++ [c]) lv t h
      · rw [hmm] at h
        rw [if_pos rfl] at h
        simp only [List.mem_append, List.mem_cons] at h
        rcases h with hflush | hhead | hrest
        · by_cases hw : nonWs acc = true <;> simp [hw] at hflush
        · injection hhead with h1 h2
          subst h1
          subst h2
          exact ⟨(matchHeadingAt_level hmm).1, (matchHeadingAt_level hmm).2,
            pyStrip_idem _⟩
        · exact ih hm.rest false [] lv t hrest

lemma bestWs_no_nl : ∀ (w : Nat) (s1 : List Char), (∀ c ∈ s1, ¬ c = '\n') →
    bestWs w s1 =
      if 1 ≤ min w (s1.length - 1) then some (min w (s1.length - 1)) else none := by
  intro w
  induction w with
  | zero =>
    intro s1 _
    have hno : ¬ 1 ≤ min 0 (s1.length - 1) := by omega
    rw [bestWs, if_neg hno]
  | succ w ih =>
    intro s1 h
    rw [bestWs]
    rcases hd : s1.drop (w + 1) with _ | ⟨c, cs⟩
    · have hlen : s1.length ≤ w + 1 := by
        have h2 := congrArg List.length hd
        simp [List.length_drop] at h2
        omega
      rw [ih s1 h]
      have hmin : min (w + 1) (s1.length - 1) = min w (s1.length - 1) := by omega
      rw [hmin]
    · have hc : ¬ c = '\n' := h c (List.mem_of_mem_drop (hd ▸ List.mem_cons_self c cs))
      have hlen : w + 1 < s1.length := by
        have h2 := congrArg List.length hd
        simp [List.length_drop] at h2
        omega
      show (if c = '\n' then bestWs w s1 else some (w + 1)) = _
      rw [if_neg hc]
      have hmin : min (w + 1) (s1.length - 1) = w + 1 := by omega
      rw [if_pos (by omega), hmin]

lemma takeWhile_ws_len_pos {c : Char} {rest : List Char} (hc : pyWs c = true) :
    1 ≤ ((c :: rest).takeWhile pyWs).length := by
  rw [List.takeWhile_cons, if_pos hc]
  simp

lemma ws_head_of_takeWhile_pos {c : Char} {rest : List Char}
    (h : 1 ≤ ((c :: rest).takeWhile pyWs).length) : pyWs c = true := by
  by_cases hc : pyWs c = true
  · exact hc
  · rw [List.takeWhile_cons, if_neg hc] at h
    simp at h

lemma matchHeadingAt_none_inv {s : List Char} (h : matchHeadingAt s = none) :
    ¬ (1 ≤ (s.takeWhile (fun c => c = '#')).length ∧
        (s.takeWhile (fun c => c = '#')).length ≤ 6) ∨
    bestWs ((s.drop (s.takeWhile (fun c => c = '#')).length).takeWhile
        pyWs).length
      (s.drop (s.takeWhile (fun c => c = '#')).length) = none := by
  simp only [matchHeadingAt] at h
  split at h
  · split at h
    · right; assumption
    · exact absurd h (by simp)
  · left; assumption

lemma dropWhile_drop_takeWhile (p : Char → Bool) : ∀ (u : List Char) (j : Nat),
    j ≤ (u.takeWhile p).length → (u.drop j).dropWhile p = u.dropWhile p := by
  intro u
  induction u with
  | nil =>
    intro j hj
    simp only [List.takeWhile_nil, List.length_nil, Nat.le_zero] at hj
    subst hj
    rfl
  | cons c cs ih =>
    intro j hj
    cases j with
    | zero => rfl
    | succ j =>
      rw [List.takeWhile_cons] at hj
      by_cases hc : p c = true
      · rw [if_pos hc] at hj
        simp only [List.length_cons] at hj
        have hj2 : j ≤ (cs.takeWhile p).length := by omega
        show (cs.drop j).dropWhile p = _
        rw [ih j hj2, List.dropWhile_cons, if_pos hc]
      · rw [if_neg hc] at hj
        simp at hj

lemma pyStrip_drop (u : List Char) (j : Nat)
    (hj : j ≤ (u.takeWhile pyWs).length) :
    pyStrip (u.drop j) = pyStrip u := by
  unfold pyStrip
  rw [dropWhile_drop_takeWhile pyWs u j hj]

lemma specLineHeading_of_match_no_nl {s : List Char} {hm : HMatch}
    (h : ∀ c ∈ s, ¬ c = '\n') (hmm : matchHeadingAt s = some hm) :
    specLineHeading s = some (hm.level, pyStrip hm.g2) ∧ hm.rest = [] := by
  obtain ⟨m, h1, h6, hb, hlv, hg2, hrest, -⟩ := matchHeadingAt_inv hmm
  set r := (s.takeWhile (fun c => c = '#')).length with hrdef
  set s1 := s.drop r with hs1def
  have hs1nl : ∀ c ∈ s1, ¬ c = '\n' := fun c hc => h c (List.mem_of_mem_drop hc)
  rw [bestWs_no_nl _ s1 hs1nl] at hb
  by_cases hcond : 1 ≤ min (s1.takeWhile pyWs).length (s1.length - 1)
  case neg =>
    rw [if_neg hcond] at hb
    exact absurd hb (by simp)
  rw [if_pos hcond] at hb
  have hmeq : m = min (s1.takeWhile pyWs).length (s1.length - 1) :=
    (Option.some_inj.1 hb).symm
  have hwle : (s1.takeWhile pyWs).length ≤ s1.length :=
    List.Sublist.length_le (List.takeWhile_sublist _)
  have hw1 : 1 ≤ (s1.takeWhile pyWs).length := by omega
  have hL2 : 2 ≤ s1.length := by omega
  have hrestnil : hm.rest = [] := by
    rw [hrest, List.dropWhile_eq_nil_iff]
    intro x hx
    simp [hs1nl x (List.mem_of_mem_drop hx)]
  have hg2full : hm.g2 = s1.drop m := by
    rw [hg2]
    exact List.takeWhile_eq_self_iff.2
      (fun x hx => decide_eq_true (hs1nl x (List.mem_of_mem_drop hx)))
  refine ⟨?_, hrestnil⟩
  rcases hsc : s1 with _ | ⟨c, rest⟩
  · rw [hsc] at hL2
    simp at hL2
  · have hwc : pyWs c = true := by
      apply @ws_head_of_takeWhile_pos c rest
      rw [← hsc]
      exact hw1
    have hrestne : rest ≠ [] := by
      intro hre
      rw [hsc, hre] at hL2
      simp at hL2
    unfold specLineHeading
    rw [← hrdef, ← hs1def, hsc, if_pos ⟨h1, h6⟩]
    show (if pyWs c ∧ rest ≠ [] then
        some (r, pyStrip (s.drop (r + 1))) else none) = some (hm.level, pyStrip hm.g2)
    rw [if_pos ⟨hwc, hrestne⟩, hlv]
    have hdrop1 : s.drop (r + 1) = s1.drop 1 := by
      rw [hs1def, List.drop_drop]
    have hp1 : pyStrip (s1.drop 1) = pyStrip s1 := pyStrip_drop s1 1 hw1
    have hpm : pyStrip (s1.drop m) = pyStrip s1 := pyStrip_drop s1 m (by omega)
    rw [hdrop1, hp1, hg2full, hpm]

lemma specLineHeading_none_of_match_no_nl {s : List Char}
    (h : ∀ c ∈ s, ¬ c = '\n') (hmm : matchHeadingAt s = none) :
    specLineHeading s = none := by
  rcases matchHeadingAt_none_inv hmm with hr | hb
  · unfold specLineHeading
    rw [if_neg hr]
  · set r := (s.takeWhile (fun c => c = '#')).length with hrdef
    set s1 := s.drop r with hs1def
    have hs1nl : ∀ c ∈ s1, ¬ c = '\n' := fun c hc => h c (List.mem_of_mem_drop hc)
    rw [bestWs_no_nl _ s1 hs1nl] at hb
    by_cases hcond : 1 ≤ min (s1.takeWhile pyWs).length (s1.length - 1)
    · rw [if_pos hcond] at hb
      exact absurd hb (by simp)
    · unfold specLineHeading
      by_cases hg : 1 ≤ r ∧ r ≤ 6
      · rw [← hrdef, ← hs1def, if_pos hg]
        rcases hsc : s1 with _ | ⟨c, rest⟩
        · rfl
        · have hcc : ¬ (pyWs c = true ∧ rest ≠ []) := by
            rintro ⟨hwc, hrne⟩
            apply hcond
            have hw1 : 1 ≤ ((c :: rest).takeWhile pyWs).length :=
              takeWhile_ws_len_pos hwc
            have hr1 : 1 ≤ rest.length := by
              cases rest with
              | nil => exact absurd rfl hrne
              | cons _ _ => simp
            rw [hsc]
            simp only [List.length_cons]
            omega
          show (if pyWs c ∧ rest ≠ [] then
              some (r, pyStrip (s.drop (r + 1))) else none) = none
          rw [if_neg hcc]
      · rw [← hrdef, if_neg hg]

lemma scanNodes_nil_acc (fuel : Nat) (ls : Bool) : scanNodes fuel [] ls [] = [] := by
  cases fuel with
  | zero => rfl
  | succ fuel => cases ls <;> rfl

lemma scanNodes_no_nl_false : ∀ (fuel : Nat) (s : List Char) (acc : List Char),
    (∀ c ∈ s, ¬ c = '\n') → s.length ≤ fuel →
    scanNodes fuel s false acc =
      if nonWs (acc ++ s) then [Node.content (acc ++ s)] else [] := by
  intro fuel
  induction fuel with
  | zero =>
    intro s acc h hlen
    have hs : s = [] := List.length_eq_zero.1 (Nat.le_zero.1 hlen)
    subst hs
    rw [scanNodes_zero]
    simp
  | succ fuel ih =>
    intro s acc h hlen
    rw [scanNodes_succ]
    cases s with
    | nil => simp
    | cons c cs =>
      have hc : ¬ c = '\n' := h c (List.mem_cons_self c cs)
      show scanNodes fuel cs (c = '\n') (acc ++ [c]) = _
      have hdec : (decide (c = '\n')) = false := decide_eq_false hc
      rw [hdec, ih cs (acc ++ [c]) (fun x hx => h x (List.mem_cons_of_mem c hx))
        (by simp at hlen; omega), List.append_assoc]
      rfl

lemma parse_sections_no_nl (content : List Char) (h : ∀ c ∈ content, ¬ c = '\n') :
    parse_sections content =
      match specLineHeading content with
      | some (lv, t) => [Node.heading lv t]
      | none => if nonWs content then [Node.content content] else [] := by
  unfold parse_sections
  cases content with
  | nil => rfl
  | cons c0 cs0 =>
    rw [show (c0 :: cs0).length = cs0.length + 1 from rfl, scanNodes_succ, if_pos rfl]
    rcases hmm : matchHeadingAt (c0 :: cs0) with _ | hm
    · rw [specLineHeading_none_of_match_no_nl h hmm]
      show scanNodes cs0.length cs0 (c0 = '\n') ([] ++ [c0]) = _
      have hc0 : (decide (c0 = '\n')) = false :=
        decide_eq_false (h c0 (List.mem_cons_self _ _))
      rw [hc0, scanNodes_no_nl_false cs0.length cs0 ([] ++ [c0])
        (fun x hx => h x (List.mem_cons_of_mem c0 hx)) (le_refl _)]
      simp
    · obtain ⟨hspec, hrest⟩ := specLineHeading_of_match_no_nl h hmm
      rw [hspec]
      show (if nonWs [] then [Node.content []] else []) ++
          Node.heading hm.level (pyStrip hm.g2) ::
            scanNodes cs0.length hm.rest false [] =
        [Node.heading hm.level (pyStrip hm.g2)]
      rw [hrest, scanNodes_nil_acc]
      rfl

/-- C4, counterexample: `\s` matches `'\n'`, so the heading pattern is NOT
anchored within one line.  In `"##\nx"` the match spans both lines:
`parse_sections` yields a level-2 heading with text `"x"`, although no
single line of the document matches "1 to 6 marker characters, then
whitespace, then text" (per-line reading, `specLineHeading`). -/
theorem parse_sections_match_spans_lines :
    parse_sections "##\nx".toList = [Node.heading 2 ['x']] ∧
    ((splitNl "##\nx".toList).all (fun l => decide (specLineHeading l = none))) = true := by
  decide

/-- C4 (amended): every heading node produced by `parse_sections` has a
level between 1 and 6 (7 or more markers never match) and text trimmed of
surrounding whitespace; and on documents without newlines — where the match
cannot spill over a line boundary — `parse_sections` recognizes a heading
exactly when the line matches "1 to 6 marker characters, then whitespace,
then text", with that level and trimmed text, any other non-blank document
becoming a single content node.  (In general a match may span several
lines, because `\s+` matches newlines; see the counterexample.) -/
theorem parse_sections_heading_rule (content : List Char) :
    (∀ lv t, Node.heading lv t ∈ parse_sections content →
      1 ≤ lv ∧ lv ≤ 6 ∧ pyStrip t = t) ∧
    ((∀ c ∈ content, ¬ c = '\n') → parse_sections content =
      match specLineHeading content with
      | some (lv, t) => [Node.heading lv t]
      | none => if nonWs content then [Node.content content] else []) :=
  ⟨fun lv t h => scanNodes_heading_mem content.length content true [] lv t h,
   parse_sections_no_nl content⟩

/-- C4, witness: on the one-line document `"## Sub"` the amended rule gives
exactly one level-2 heading with trimmed text `"Sub"`. -/
theorem parse_sections_heading_rule_witness :
    (1 ≤ 2 ∧ 2 ≤ 6 ∧ pyStrip "Sub".toList = "Sub".toList) ∧
    parse_sections "## Sub".toList = [Node.heading 2 "Sub".toList] := by
  constructor
  · exact (parse_sections_heading_rule "## Sub".toList).1 2 "Sub".toList (by decide)
  · rw [(parse_sections_heading_rule "## Sub".toList).2 (by decide)]
    decide

example : pyWs '\x0c' = true := by decide
example : pyWs '\x1f' = true := by decide
example : pyWs 'x' = false := by decide
example : parse_sections "##\x0cx".toList = [Node.heading 2 ['x']] := by decide
example : pyStrip "a\x0c".toList = ['a'] := by decide
example : parse_sections "# a\x0c\n".toList = [Node.heading 1 ['a']] := by decide
example : parse_sections "# A\n\x0c\n# B".toList =
    [Node.heading 1 ['A'], Node.heading 1 ['B']] := by decide
example : stemName ".html".toList = ".html".toList := by decide
example : stemName "a.".toList = "a.".toList := by decide
example : generate_index [".html".toList] =
    [⟨".html".toList, ".html".toList⟩] := by decide
example : splitlinesPy "a\r\nb".toList = ["a".toList, "b".toList] := by decide
example : splitlinesPy "a\x0bb\x0c".toList = ["a".toList, "b".toList] := by decide
